import Mathlib

/-!
Shallow embedding of the Poincaré-disk playground core: the coordinate
transforms and arc construction of `PoincareDiskGeometry` and the point/line
graph of `PoincareGraph`.

JS `number`s are modelled by real numbers.  A JS computation that produces a
non-finite value (`NaN` or `±Infinity`) is modelled by `Option.none` at the
point where the non-finite value arises: `Math.sqrt` of a negative argument
and `Math.atanh` outside `(-1, 1)` are the only such points in this code.
-/

open scoped Classical

/-- Inverse hyperbolic tangent on `(-1, 1)`: the mathematical function that
`Math.atanh` computes on the interior of its domain. -/
noncomputable def artanh (x : ℝ) : ℝ := Real.log ((1 + x) / (1 - x)) / 2

/-- Model of `Math.atanh`: finite exactly on the open interval `(-1, 1)`;
`±1` give `±Infinity` and arguments beyond give `NaN`, both modelled `none`. -/
noncomputable def jsAtanh (x : ℝ) : Option ℝ :=
  if 1 ≤ |x| then none else some (artanh x)

/-- Embedding of `getNormalizedPointFromHyperbolicPoint` from
`src/geometry/PoincareDiskGeometry.ts` (lines 18–30).  The source computes
`xb = Math.tanh(x)`, `yb = Math.tanh(y)` and divides each by
`1 + Math.sqrt(1 - xb² - yb²)`.  When `xb² + yb² > 1` the square root
receives a negative argument and the JS result is the point `(NaN, NaN)`,
modelled here by `none`. -/
noncomputable def getNormalizedPointFromHyperbolicPoint (p : ℝ × ℝ) : Option (ℝ × ℝ) :=
  let xb := Real.tanh p.1
  let yb := Real.tanh p.2
  if 1 - xb ^ 2 - yb ^ 2 < 0 then none
  else
    some (xb / (1 + Real.sqrt (1 - xb ^ 2 - yb ^ 2)),
          yb / (1 + Real.sqrt (1 - xb ^ 2 - yb ^ 2)))

/-- Embedding of `getHyperbolicPointFromNormalizedPoint` from
`src/geometry/PoincareDiskGeometry.ts` (lines 32–51).  The outer `Option` is
the `undefined` result of the source (returned exactly when `rp === 0`); each
coordinate is an `Option ℝ` because the source applies `Math.atanh`
unguarded, so a coordinate can come out non-finite (modelled `none`). -/
noncomputable def getHyperbolicPointFromNormalizedPoint (p : ℝ × ℝ) :
    Option (Option ℝ × Option ℝ) :=
  let rp := Real.sqrt (p.1 ^ 2 + p.2 ^ 2)
  if rp = 0 then none
  else
    let rb := 2 * rp / (1 + rp ^ 2)
    some (jsAtanh (p.1 / rp * rb), jsAtanh (p.2 / rp * rb))

/-- Helper facts about `Real.tanh`, expressed through `sinh` and `cosh`. -/
theorem tanh_sq_lt_one (x : ℝ) : Real.tanh x ^ 2 < 1 := by
  rw [Real.tanh_eq_sinh_div_cosh, div_pow]
  rw [div_lt_one (by positivity)]
  nlinarith [Real.cosh_sq x]

theorem abs_tanh_lt_one (x : ℝ) : |Real.tanh x| < 1 := by
  have h := tanh_sq_lt_one x
  nlinarith [abs_nonneg (Real.tanh x), sq_abs (Real.tanh x)]

theorem tanh_eq_zero_iff {x : ℝ} : Real.tanh x = 0 ↔ x = 0 := by
  rw [Real.tanh_eq_sinh_div_cosh, div_eq_zero_iff]
  constructor
  · rintro (h | h)
    · exact Real.sinh_injective (by simpa using h)
    · exact absurd h (ne_of_gt (Real.cosh_pos x))
  · rintro rfl
    exact Or.inl Real.sinh_zero

/-- The function `tanh` written with exponentials. -/
theorem tanh_eq_exp (x : ℝ) :
    Real.tanh x = (Real.exp x - Real.exp (-x)) / (Real.exp x + Real.exp (-x)) := by
  rw [Real.tanh_eq_sinh_div_cosh, Real.sinh_eq, Real.cosh_eq]
  have h : Real.exp x + Real.exp (-x) > 0 := by positivity
  field_simp

theorem artanh_tanh (x : ℝ) : artanh (Real.tanh x) = x := by
  have hE : 0 < Real.exp x := Real.exp_pos x
  have hF : 0 < Real.exp (-x) := Real.exp_pos (-x)
  have hEF : Real.exp x * Real.exp (-x) = 1 := by
    rw [← Real.exp_add]; simp
  have hsum : (0 : ℝ) < Real.exp x + Real.exp (-x) := by positivity
  have hne : 1 - Real.tanh x ≠ 0 := by
    have := abs_tanh_lt_one x
    rw [abs_lt] at this
    intro hzero
    linarith [this.2]
  have key : (1 + Real.tanh x) / (1 - Real.tanh x) = Real.exp x * Real.exp x := by
    rw [div_eq_iff hne, tanh_eq_exp]
    field_simp
    linear_combination (-2 * Real.exp x) * hEF
  rw [artanh, key, ← Real.exp_add, Real.log_exp]
  ring

theorem tanh_artanh {x : ℝ} (h : |x| < 1) : Real.tanh (artanh x) = x := by
  obtain ⟨hl, hr⟩ := abs_lt.mp h
  have h1 : (0 : ℝ) < 1 + x := by linarith
  have h2 : (0 : ℝ) < 1 - x := by linarith
  have hu : (0 : ℝ) < (1 + x) / (1 - x) := by positivity
  set w := Real.exp (artanh x) with hw
  have hwpos : 0 < w := Real.exp_pos _
  have hw2 : w ^ 2 = (1 + x) / (1 - x) := by
    have : w ^ 2 = Real.exp (artanh x + artanh x) := by
      rw [Real.exp_add, hw]; ring
    rw [this, artanh]
    have harg : Real.log ((1 + x) / (1 - x)) / 2 + Real.log ((1 + x) / (1 - x)) / 2
        = Real.log ((1 + x) / (1 - x)) := by ring
    rw [harg, Real.exp_log hu]
  have hwinv : Real.exp (-artanh x) = w⁻¹ := by
    rw [Real.exp_neg, hw]
  have hgoal : w ^ 2 * (1 - x) = 1 + x := by
    rw [hw2]; field_simp
  rw [tanh_eq_exp, hwinv, ← hw]
  have hden : (0 : ℝ) < w + w⁻¹ := by positivity
  rw [div_eq_iff hden.ne']
  field_simp
  linear_combination hgoal

/-- Fact: `Real.sinh 2` exceeds `1`, via `exp 2 > 3`. -/
theorem one_lt_sinh_two : 1 < Real.sinh 2 := by
  have h3 : (3 : ℝ) < Real.exp 2 := by
    have := Real.add_one_lt_exp (x := 2) (by norm_num)
    linarith
  have hprod : Real.exp 2 * Real.exp (-2) = 1 := by
    rw [← Real.exp_add]; norm_num
  have hFpos : 0 < Real.exp (-2) := Real.exp_pos _
  rw [Real.sinh_eq]
  nlinarith

/-- Fact: `Real.tanh 2` squared exceeds one half, so the point `(2, 2)` lies outside
the domain where the azimuthal square root is real. -/
theorem half_lt_tanh_two_sq : 1 / 2 < Real.tanh 2 ^ 2 := by
  have hc := Real.cosh_pos 2
  rw [Real.tanh_eq_sinh_div_cosh, div_pow, lt_div_iff₀ (by positivity)]
  nlinarith [Real.cosh_sq 2, one_lt_sinh_two]

/-- At the hyperbolic point `(2, 2)` the radicand `1 - tanh²2 - tanh²2` is
negative, so `Math.sqrt` yields `NaN` and the transform produces no real
normalized point. -/
theorem getNormalized_two_two_eq_none :
    getNormalizedPointFromHyperbolicPoint (2, 2) = none := by
  have h : 1 - Real.tanh 2 ^ 2 - Real.tanh 2 ^ 2 < 0 := by
    have := half_lt_tanh_two_sq; linarith
  simp only [getNormalizedPointFromHyperbolicPoint]
  rw [if_pos h]

/-- C1 counterexample: the claim fails at the finite hyperbolic point `(2, 2)`:
`tanh 2² + tanh 2² > 1`, the square root receives a negative argument, and the
source returns the NaN point (modelled `none`) rather than a point of the open
unit disk. -/
theorem C1_containment_counterexample :
    getNormalizedPointFromHyperbolicPoint (2, 2) = none :=
  getNormalized_two_two_eq_none

/-- C1 (amended): for every finite hyperbolic point `(x, y)` with
`tanh x² + tanh y² < 1`, `getNormalizedPointFromHyperbolicPoint` returns a
normalized point lying strictly inside the open unit disk. -/
theorem C1_containment (x y : ℝ)
    (h : Real.tanh x ^ 2 + Real.tanh y ^ 2 < 1) :
    ∃ q : ℝ × ℝ, getNormalizedPointFromHyperbolicPoint (x, y) = some q ∧
      q.1 ^ 2 + q.2 ^ 2 < 1 := by
  have hD : (0 : ℝ) < 1 - Real.tanh x ^ 2 - Real.tanh y ^ 2 := by linarith
  have hnot : ¬(1 - Real.tanh x ^ 2 - Real.tanh y ^ 2 < 0) := by linarith
  have hsnn : 0 ≤ Real.sqrt (1 - Real.tanh x ^ 2 - Real.tanh y ^ 2) :=
    Real.sqrt_nonneg _
  have hs : (0 : ℝ) < 1 + Real.sqrt (1 - Real.tanh x ^ 2 - Real.tanh y ^ 2) := by
    linarith
  refine ⟨(Real.tanh x / (1 + Real.sqrt (1 - Real.tanh x ^ 2 - Real.tanh y ^ 2)),
           Real.tanh y / (1 + Real.sqrt (1 - Real.tanh x ^ 2 - Real.tanh y ^ 2))),
          ?_, ?_⟩
  · simp only [getNormalizedPointFromHyperbolicPoint]
    rw [if_neg hnot]
  · simp only
    rw [div_pow, div_pow, div_add_div_same, div_lt_one (by positivity)]
    nlinarith

/-- C1 witness: the origin satisfies the amended hypothesis and lands inside
the disk. -/
theorem C1_containment_witness :
    Real.tanh 0 ^ 2 + Real.tanh 0 ^ 2 < 1 ∧
      ∃ q : ℝ × ℝ, getNormalizedPointFromHyperbolicPoint (0, 0) = some q ∧
        q.1 ^ 2 + q.2 ^ 2 < 1 :=
  ⟨by rw [Real.tanh_zero]; norm_num,
   C1_containment 0 0 (by rw [Real.tanh_zero]; norm_num)⟩

/-- When the radicand is nonnegative the forward transform produces the
explicit pair of quotients from the source. -/
theorem getNormalized_eq_some {x y : ℝ}
    (h : 0 ≤ 1 - Real.tanh x ^ 2 - Real.tanh y ^ 2) :
    getNormalizedPointFromHyperbolicPoint (x, y) =
      some (Real.tanh x / (1 + Real.sqrt (1 - Real.tanh x ^ 2 - Real.tanh y ^ 2)),
            Real.tanh y / (1 + Real.sqrt (1 - Real.tanh x ^ 2 - Real.tanh y ^ 2))) := by
  simp only [getNormalizedPointFromHyperbolicPoint]
  rw [if_neg (not_lt.mpr h)]

/-- The model `jsAtanh` inverts `tanh` on every real argument. -/
theorem jsAtanh_tanh (t : ℝ) : jsAtanh (Real.tanh t) = some t := by
  simp only [jsAtanh]
  rw [if_neg (not_le.mpr (abs_tanh_lt_one t)), artanh_tanh]

/-- C2 (amended): on the domain where the forward square root is real
(`tanh x² + tanh y² ≤ 1`) and away from the origin, the two transforms are
mutually inverse, exactly. -/
theorem C2_roundTrip (x y : ℝ) (hne : (x, y) ≠ ((0 : ℝ), (0 : ℝ)))
    (hdom : Real.tanh x ^ 2 + Real.tanh y ^ 2 ≤ 1) :
    (getNormalizedPointFromHyperbolicPoint (x, y)).bind
        getHyperbolicPointFromNormalizedPoint = some (some x, some y) := by
  have hD0 : 0 ≤ 1 - Real.tanh x ^ 2 - Real.tanh y ^ 2 := by linarith
  rw [getNormalized_eq_some hD0]
  rw [Option.some_bind]
  set D := 1 - Real.tanh x ^ 2 - Real.tanh y ^ 2 with hD
  set s := 1 + Real.sqrt D with hs
  have hsnn : 0 ≤ Real.sqrt D := Real.sqrt_nonneg D
  have hs0 : (0 : ℝ) < s := by rw [hs]; linarith
  have hsqD : Real.sqrt D ^ 2 = D := Real.sq_sqrt hD0
  have hρ : 0 < Real.tanh x ^ 2 + Real.tanh y ^ 2 := by
    have hxy : x ≠ 0 ∨ y ≠ 0 := by
      by_contra hcon
      push_neg at hcon
      exact hne (by rw [hcon.1, hcon.2])
    rcases hxy with h | h
    · have : Real.tanh x ≠ 0 := fun hz => h (tanh_eq_zero_iff.mp hz)
      nlinarith [pow_two_pos_of_ne_zero this, sq_nonneg (Real.tanh y)]
    · have : Real.tanh y ≠ 0 := fun hz => h (tanh_eq_zero_iff.mp hz)
      nlinarith [pow_two_pos_of_ne_zero this, sq_nonneg (Real.tanh x)]
  set R := Real.sqrt (Real.tanh x ^ 2 + Real.tanh y ^ 2) with hRdef
  have hR : 0 < R := Real.sqrt_pos.mpr hρ
  have hRsq : R ^ 2 = Real.tanh x ^ 2 + Real.tanh y ^ 2 := Real.sq_sqrt hρ.le
  simp only [getHyperbolicPointFromNormalizedPoint]
  have hsum : (Real.tanh x / s) ^ 2 + (Real.tanh y / s) ^ 2 = (R / s) ^ 2 := by
    rw [div_pow, div_pow, div_pow, hRsq, div_add_div_same]
  rw [hsum, Real.sqrt_sq (by positivity)]
  rw [if_neg (by positivity : (0 : ℝ) < R / s).ne']
  have hs2 : s ^ 2 + (Real.tanh x ^ 2 + Real.tanh y ^ 2) = 2 * s := by
    rw [hs]
    linear_combination hsqD
  have hden : 1 + (R / s) ^ 2 = 2 / s := by
    rw [div_pow, hRsq, eq_div_iff hs0.ne']
    field_simp
    linear_combination s * hs2
  have harg : ∀ t : ℝ, t / s / (R / s) * (2 * (R / s) / (1 + (R / s) ^ 2)) = t := by
    intro t
    rw [hden]
    field_simp
  rw [harg, harg, jsAtanh_tanh, jsAtanh_tanh]

/-- C2 counterexample: at the finite point `(2, 2)` (which is nonzero) the
forward transform already yields the NaN point, so the round trip cannot
return `(2, 2)`. -/
theorem C2_roundTrip_counterexample :
    (getNormalizedPointFromHyperbolicPoint (2, 2)).bind
        getHyperbolicPointFromNormalizedPoint ≠ some (some 2, some 2) := by
  rw [getNormalized_two_two_eq_none]
  simp

/-- C2 witness at the nonzero point `(artanh (1/2), 0)`. -/
theorem C2_roundTrip_witness :
    ((artanh (1 / 2), (0 : ℝ)) ≠ ((0 : ℝ), (0 : ℝ))) ∧
      Real.tanh (artanh (1 / 2)) ^ 2 + Real.tanh (0 : ℝ) ^ 2 ≤ 1 ∧
      (getNormalizedPointFromHyperbolicPoint (artanh (1 / 2), 0)).bind
          getHyperbolicPointFromNormalizedPoint
        = some (some (artanh (1 / 2)), some 0) := by
  have hhalf : |(1 : ℝ) / 2| < 1 := by rw [abs_lt]; constructor <;> norm_num
  have hart : artanh (1 / 2) ≠ 0 := by
    rw [artanh]
    have h3 : ((1 : ℝ) + 1 / 2) / (1 - 1 / 2) = 3 := by norm_num
    rw [h3]
    have hlog := Real.log_pos (by norm_num : (1 : ℝ) < 3)
    exact ne_of_gt (by linarith)
  have hne : (artanh (1 / 2), (0 : ℝ)) ≠ ((0 : ℝ), (0 : ℝ)) :=
    fun hc => hart (congrArg Prod.fst hc)
  have hdom : Real.tanh (artanh (1 / 2)) ^ 2 + Real.tanh (0 : ℝ) ^ 2 ≤ 1 := by
    rw [tanh_artanh hhalf, Real.tanh_zero]
    norm_num
  exact ⟨hne, hdom, C2_roundTrip _ _ hne hdom⟩

/-- C3: the source does not guard normalized inputs at or beyond unit
distance.  At the boundary point `(1, 0)` it reaches the `Math.atanh` step
with argument `1` and returns a point whose x-coordinate is `Infinity`
(modelled `none`), contradicting the claimed rejection/saturation. -/
theorem C3_no_boundary_guard :
    getHyperbolicPointFromNormalizedPoint (1, 0) = some (none, some 0) := by
  simp only [getHyperbolicPointFromNormalizedPoint]
  have h1 : ((1 : ℝ) ^ 2 + (0 : ℝ) ^ 2) = 1 := by norm_num
  rw [h1, Real.sqrt_one]
  rw [if_neg (by norm_num : ¬(1 : ℝ) = 0)]
  norm_num
  constructor
  · simp [jsAtanh]
  · simp [jsAtanh, artanh, Real.log_one]

/-- C9: the inverse transform returns `undefined` exactly at the disk
center; every point of nonzero radius produces a (possibly non-finite)
hyperbolic point object. -/
theorem C9_none_iff_center (p : ℝ × ℝ) :
    getHyperbolicPointFromNormalizedPoint p = none ↔ p = (0, 0) := by
  simp only [getHyperbolicPointFromNormalizedPoint]
  by_cases h : Real.sqrt (p.1 ^ 2 + p.2 ^ 2) = 0
  · rw [if_pos h]
    have hle := Real.sqrt_eq_zero'.mp h
    have h1 : p.1 = 0 := by nlinarith [sq_nonneg p.1, sq_nonneg p.2]
    have h2 : p.2 = 0 := by nlinarith [sq_nonneg p.1, sq_nonneg p.2]
    exact ⟨fun _ => Prod.ext_iff.mpr ⟨h1, h2⟩, fun _ => rfl⟩
  · rw [if_neg h]
    constructor
    · intro hc
      exact absurd hc (by simp)
    · rintro rfl
      exact absurd (by norm_num [Real.sqrt_zero]) h

/-- The graph of `PoincareGraph` (`src/components/PoincareGraph.ts`).  The
source stores `HyperbolicPoint` objects in arrays and compares them with
`===` (reference identity); a point is therefore modelled as an integer
handle (its identity), with coordinates kept in a separate heap `ℕ → ℝ × ℝ`
passed to the queries that need them.  A line is the pair of its endpoint
handles. -/
structure PoincareGraph where
  points : List ℕ
  lines : List (ℕ × ℕ)

/-- Embedding of `addPoint`: pushes the point; no dedup. -/
def PoincareGraph.addPoint (g : PoincareGraph) (p : ℕ) : PoincareGraph :=
  { g with points := g.points ++ [p] }

/-- Embedding of `addLine`: pushes the pair; no distinctness or membership check. -/
def PoincareGraph.addLine (g : PoincareGraph) (s e : ℕ) : PoincareGraph :=
  { g with lines := g.lines ++ [(s, e)] }

/-- Embedding of `removePoint`: keeps the points different from `p` and the lines whose
`start` and `end` both differ from `p`. -/
def PoincareGraph.removePoint (g : PoincareGraph) (p : ℕ) : PoincareGraph :=
  { points := g.points.filter fun q => decide (q ≠ p),
    lines := g.lines.filter fun l => decide (l.1 ≠ p ∧ l.2 ≠ p) }

/-- Embedding of `removePoints`: same with a set of points (`Set.has` on object identity
is membership of handles). -/
def PoincareGraph.removePoints (g : PoincareGraph) (ps : List ℕ) : PoincareGraph :=
  { points := g.points.filter fun q => decide (q ∉ ps),
    lines := g.lines.filter fun l => decide (l.1 ∉ ps ∧ l.2 ∉ ps) }

/-- C4: `removePoint p` / `removePoints s` delete exactly the given
point(s), and exactly the lines with a deleted endpoint, in one step: no
remaining line references a removed point, and every other point and line is
retained. -/
theorem C4_cascade_delete (g : PoincareGraph) (p : ℕ) (s : List ℕ) :
    (∀ q, q ∈ (g.removePoint p).points ↔ q ∈ g.points ∧ q ≠ p) ∧
    (∀ l, l ∈ (g.removePoint p).lines ↔ l ∈ g.lines ∧ l.1 ≠ p ∧ l.2 ≠ p) ∧
    (∀ q, q ∈ (g.removePoints s).points ↔ q ∈ g.points ∧ q ∉ s) ∧
    (∀ l, l ∈ (g.removePoints s).lines ↔ l ∈ g.lines ∧ l.1 ∉ s ∧ l.2 ∉ s) := by
  refine ⟨fun q => ?_, fun l => ?_, fun q => ?_, fun l => ?_⟩ <;>
    simp [PoincareGraph.removePoint, PoincareGraph.removePoints, List.mem_filter]

/-- Filtering with a (pointwise) stronger predicate keeps at most as many
elements. -/
theorem filter_length_le_of_imp {p q : ℕ → Bool}
    (himp : ∀ x, p x = true → q x = true) (l : List ℕ) :
    (l.filter p).length ≤ (l.filter q).length := by
  induction l with
  | nil => simp
  | cons b bs ih =>
    by_cases hpb : p b = true
    · rw [List.filter_cons_of_pos hpb, List.filter_cons_of_pos (himp b hpb)]
      simpa using ih
    · rw [List.filter_cons_of_neg (by simpa using hpb)]
      by_cases hqb : q b = true
      · rw [List.filter_cons_of_pos hqb]
        exact le_trans ih (Nat.le_succ _)
      · rw [List.filter_cons_of_neg (by simpa using hqb)]
        exact ih

/-- Filtering with a strictly stronger predicate, refuted at some member
that the weaker one accepts, keeps strictly fewer elements. -/
theorem filter_length_lt_of_imp {p q : ℕ → Bool}
    (himp : ∀ x, p x = true → q x = true) {a : ℕ} {l : List ℕ}
    (hal : a ∈ l) (hpa : p a = false) (hqa : q a = true) :
    (l.filter p).length < (l.filter q).length := by
  induction l with
  | nil => cases hal
  | cons b bs ih =>
    rcases List.mem_cons.mp hal with rfl | hmem
    · rw [List.filter_cons_of_neg (by simp [hpa]), List.filter_cons_of_pos hqa]
      exact Nat.lt_succ_of_le (filter_length_le_of_imp himp bs)
    · by_cases hpb : p b = true
      · rw [List.filter_cons_of_pos hpb, List.filter_cons_of_pos (himp b hpb)]
        simpa using ih hmem
      · rw [List.filter_cons_of_neg (by simpa using hpb)]
        by_cases hqb : q b = true
        · rw [List.filter_cons_of_pos hqb]
          exact Nat.lt_succ_of_lt (ih hmem)
        · rw [List.filter_cons_of_neg (by simpa using hqb)]
          exact ih hmem

/-- All endpoints occurring in a line list (with multiplicity). -/
def allEndpoints (lines : List (ℕ × ℕ)) : List ℕ :=
  lines.foldr (fun l acc => l.1 :: l.2 :: acc) []

theorem mem_allEndpoints {lines : List (ℕ × ℕ)} {v : ℕ} :
    v ∈ allEndpoints lines ↔ ∃ l ∈ lines, l.1 = v ∨ l.2 = v := by
  induction lines with
  | nil => simp [allEndpoints]
  | cons l ls ih =>
    simp only [allEndpoints, List.foldr_cons, List.mem_cons] at ih ⊢
    constructor
    · rintro (h | h | h)
      · exact ⟨l, Or.inl rfl, Or.inl h.symm⟩
      · exact ⟨l, Or.inl rfl, Or.inr h.symm⟩
      · obtain ⟨m, hm, hor⟩ := ih.mp h
        exact ⟨m, Or.inr hm, hor⟩
    · rintro ⟨m, hm | hm, hor⟩
      · rcases hor with h | h
        · exact Or.inl (hm ▸ h.symm)
        · exact Or.inr (Or.inl (hm ▸ h.symm))
      · exact Or.inr (Or.inr (ih.mpr ⟨m, hm, hor⟩))

/-- The `forEach` body of `findConnectedComponents`: for each line, push
`end` when `start` matches the current point and `end` is unvisited, and
push `start` when `end` matches and `start` is unvisited (`vis` is the
visited set at push time, which already contains the current point). -/
def pushNeighbors (c : ℕ) (vis : List ℕ) : List (ℕ × ℕ) → List ℕ
  | [] => []
  | l :: ls =>
    ((if l.1 = c ∧ l.2 ∉ vis then [l.2] else []) ++
      (if l.2 = c ∧ l.1 ∉ vis then [l.1] else [])) ++ pushNeighbors c vis ls

theorem mem_pushNeighbors {c : ℕ} {vis : List ℕ} {lines : List (ℕ × ℕ)} {w : ℕ} :
    w ∈ pushNeighbors c vis lines ↔
      w ∉ vis ∧ ∃ l ∈ lines, (l.1 = c ∧ l.2 = w) ∨ (l.2 = c ∧ l.1 = w) := by
  induction lines with
  | nil => simp [pushNeighbors]
  | cons l ls ih =>
    simp only [pushNeighbors, List.mem_append]
    constructor
    · rintro ((hw | hw) | hw)
      · by_cases h1 : l.1 = c ∧ l.2 ∉ vis
        · rw [if_pos h1] at hw
          have hw2 := List.mem_singleton.mp hw
          subst hw2
          exact ⟨h1.2, l, List.mem_cons_self l ls, Or.inl ⟨h1.1, rfl⟩⟩
        · rw [if_neg h1] at hw
          exact absurd hw (List.not_mem_nil w)
      · by_cases h2 : l.2 = c ∧ l.1 ∉ vis
        · rw [if_pos h2] at hw
          have hw2 := List.mem_singleton.mp hw
          subst hw2
          exact ⟨h2.2, l, List.mem_cons_self l ls, Or.inr ⟨h2.1, rfl⟩⟩
        · rw [if_neg h2] at hw
          exact absurd hw (List.not_mem_nil w)
      · obtain ⟨hnv, m, hm, hor⟩ := ih.mp hw
        exact ⟨hnv, m, List.mem_cons_of_mem l hm, hor⟩
    · rintro ⟨hnv, m, hm, hor⟩
      rcases List.mem_cons.mp hm with rfl | hm'
      · rcases hor with ⟨h1, h2⟩ | ⟨h1, h2⟩
        · left; left
          rw [if_pos ⟨h1, by rw [h2]; exact hnv⟩]
          simp [h2]
        · left; right
          rw [if_pos ⟨h1, by rw [h2]; exact hnv⟩]
          simp [h2]
      · right
        exact ih.mpr ⟨hnv, m, hm', hor⟩

/-- A point touched by no line pushes no neighbors. -/
theorem pushNeighbors_eq_nil {c : ℕ} {vis : List ℕ} {lines : List (ℕ × ℕ)}
    (h : c ∉ allEndpoints lines) : pushNeighbors c vis lines = [] := by
  induction lines with
  | nil => rfl
  | cons l ls ih =>
    have hl : ¬(l.1 = c ∨ l.2 = c) := by
      intro hor
      exact h (mem_allEndpoints.mpr ⟨l, List.mem_cons_self l ls, hor⟩)
    push_neg at hl
    have hrest : c ∉ allEndpoints ls := by
      intro hc
      obtain ⟨m, hm, hor⟩ := mem_allEndpoints.mp hc
      exact h (mem_allEndpoints.mpr ⟨m, List.mem_cons_of_mem l hm, hor⟩)
    simp only [pushNeighbors, ih hrest]
    rw [if_neg (by simp [hl.1]), if_neg (by simp [hl.2])]
    rfl

/-- The stack loop of `findConnectedComponents`: pop a point; if unvisited,
mark it visited and push its unvisited neighbors.  (The source uses the end
of a JS array as the top of the stack; the head of the list plays that role
here, which permutes the traversal order but not the visited set.) -/
def dfsLoop (lines : List (ℕ × ℕ)) (visited : List ℕ) (stack : List ℕ) : List ℕ :=
  match stack with
  | [] => visited
  | current :: rest =>
    if h : current ∈ visited then dfsLoop lines visited rest
    else
      dfsLoop lines (current :: visited)
        (pushNeighbors current (current :: visited) lines ++ rest)
termination_by
  (((allEndpoints lines).filter fun v => decide (v ∉ visited)).length, stack.length)
decreasing_by
  · apply Prod.Lex.right
    exact Nat.lt_succ_self _
  · by_cases hmem : current ∈ allEndpoints lines
    · apply Prod.Lex.left
      apply filter_length_lt_of_imp (a := current) (l := allEndpoints lines)
      · intro x hx
        simp only [decide_eq_true_eq] at hx ⊢
        intro hxv
        exact hx (List.mem_cons_of_mem current hxv)
      · exact hmem
      · simp
      · simpa using h
    · have hfilter :
          ((allEndpoints lines).filter fun v => decide (v ∉ current :: visited))
            = (allEndpoints lines).filter fun v => decide (v ∉ visited) := by
        apply List.filter_congr
        intro v hv
        have hne : v ≠ current := fun hveq => hmem (hveq ▸ hv)
        simp [List.mem_cons, hne]
      rw [pushNeighbors_eq_nil hmem, hfilter, List.nil_append]
      apply Prod.Lex.right
      exact Nat.lt_succ_self _

/-- Embedding of `findConnectedComponents` from `src/components/PoincareGraph.ts`
(lines 54–77): depth-first traversal from `startPoint`, returning the
visited set. -/
def PoincareGraph.findConnectedComponents (g : PoincareGraph) (startPoint : ℕ) : List ℕ :=
  dfsLoop g.lines [] [startPoint]

/-- Undirected adjacency induced by the line list: a line makes its `start`
and `end` mutually adjacent. -/
def Adjacent (lines : List (ℕ × ℕ)) (a b : ℕ) : Prop :=
  ∃ l ∈ lines, (l.1 = a ∧ l.2 = b) ∨ (l.1 = b ∧ l.2 = a)

/-- Reachability along any path of lines. -/
inductive Reach (lines : List (ℕ × ℕ)) : ℕ → ℕ → Prop
  | refl (a : ℕ) : Reach lines a a
  | tail {a b c : ℕ} : Reach lines a b → Adjacent lines b c → Reach lines a c

theorem visited_subset_dfsLoop (lines : List (ℕ × ℕ)) (visited stack : List ℕ) :
    ∀ v ∈ visited, v ∈ dfsLoop lines visited stack := by
  induction visited, stack using dfsLoop.induct lines with
  | case1 visited =>
    intro v hv
    simp only [dfsLoop]
    exact hv
  | case2 visited current rest h ih =>
    intro v hv
    simp only [dfsLoop]
    rw [dif_pos h]
    exact ih v hv
  | case3 visited current rest h ih =>
    intro v hv
    simp only [dfsLoop]
    rw [dif_neg h]
    exact ih v (List.mem_cons_of_mem _ hv)

theorem stack_subset_dfsLoop (lines : List (ℕ × ℕ)) (visited stack : List ℕ) :
    ∀ v ∈ stack, v ∈ dfsLoop lines visited stack := by
  induction visited, stack using dfsLoop.induct lines with
  | case1 visited =>
    intro v hv
    exact absurd hv (List.not_mem_nil v)
  | case2 visited current rest h ih =>
    intro v hv
    simp only [dfsLoop]
    rw [dif_pos h]
    rcases List.mem_cons.mp hv with rfl | hv'
    · exact visited_subset_dfsLoop lines visited rest v h
    · exact ih v hv'
  | case3 visited current rest h ih =>
    intro v hv
    simp only [dfsLoop]
    rw [dif_neg h]
    rcases List.mem_cons.mp hv with rfl | hv'
    · exact visited_subset_dfsLoop lines (v :: visited) _ v (List.mem_cons_self v visited)
    · exact ih v (List.mem_append_right _ hv')

theorem dfsLoop_sound (lines : List (ℕ × ℕ)) (s : ℕ) (visited stack : List ℕ) :
    (∀ v ∈ visited, Reach lines s v) → (∀ v ∈ stack, Reach lines s v) →
      ∀ v ∈ dfsLoop lines visited stack, Reach lines s v := by
  induction visited, stack using dfsLoop.induct lines with
  | case1 visited =>
    intro hvis _ v hv
    simp only [dfsLoop] at hv
    exact hvis v hv
  | case2 visited current rest h ih =>
    intro hvis hstk
    simp only [dfsLoop]
    rw [dif_pos h]
    exact ih hvis fun v hv => hstk v (List.mem_cons_of_mem _ hv)
  | case3 visited current rest h ih =>
    intro hvis hstk
    simp only [dfsLoop]
    rw [dif_neg h]
    apply ih
    · intro v hv
      rcases List.mem_cons.mp hv with rfl | hv'
      · exact hstk v (List.mem_cons_self v rest)
      · exact hvis v hv'
    · intro v hv
      rcases List.mem_append.mp hv with hp | hr
      · obtain ⟨hnv, m, hm, hor⟩ := mem_pushNeighbors.mp hp
        have hadj : Adjacent lines current v := ⟨m, hm, by tauto⟩
        exact Reach.tail (hstk current (List.mem_cons_self current rest)) hadj
      · exact hstk v (List.mem_cons_of_mem _ hr)

theorem dfsLoop_closed (lines : List (ℕ × ℕ)) (visited stack : List ℕ) :
    (∀ v ∈ visited, ∀ w, Adjacent lines v w → w ∈ visited ∨ w ∈ stack) →
      ∀ v ∈ dfsLoop lines visited stack, ∀ w, Adjacent lines v w →
        w ∈ dfsLoop lines visited stack := by
  induction visited, stack using dfsLoop.induct lines with
  | case1 visited =>
    intro hinv v hv w hadj
    simp only [dfsLoop] at hv ⊢
    rcases hinv v hv w hadj with hw | hw
    · exact hw
    · exact absurd hw (List.not_mem_nil w)
  | case2 visited current rest h ih =>
    intro hinv
    simp only [dfsLoop]
    rw [dif_pos h]
    apply ih
    intro v hv w hadj
    rcases hinv v hv w hadj with hw | hw
    · exact Or.inl hw
    · rcases List.mem_cons.mp hw with rfl | hw'
      · exact Or.inl h
      · exact Or.inr hw'
  | case3 visited current rest h ih =>
    intro hinv
    simp only [dfsLoop]
    rw [dif_neg h]
    apply ih
    intro v hv w hadj
    rcases List.mem_cons.mp hv with rfl | hv'
    · by_cases hwv : w ∈ v :: visited
      · exact Or.inl hwv
      · refine Or.inr (List.mem_append_left _ ?_)
        refine mem_pushNeighbors.mpr ⟨hwv, ?_⟩
        obtain ⟨m, hm, hor⟩ := hadj
        exact ⟨m, hm, by tauto⟩
    · rcases hinv v hv' w hadj with hw | hw
      · exact Or.inl (List.mem_cons_of_mem _ hw)
      · rcases List.mem_cons.mp hw with rfl | hw'
        · exact Or.inl (List.mem_cons_self w visited)
        · exact Or.inr (List.mem_append_right _ hw')

/-- The DFS visits exactly the points reachable from the start. -/
theorem mem_fcc_iff_reach (g : PoincareGraph) (s v : ℕ) :
    v ∈ g.findConnectedComponents s ↔ Reach g.lines s v := by
  constructor
  · intro hv
    refine dfsLoop_sound g.lines s [] [s] (by simp) ?_ v hv
    intro u hu
    rcases List.mem_singleton.mp hu with rfl
    exact Reach.refl u
  · intro hr
    induction hr with
    | refl =>
      exact stack_subset_dfsLoop g.lines [] [s] s (List.mem_singleton_self s)
    | tail hr hadj ih =>
      exact dfsLoop_closed g.lines [] [s] (by simp) _ ih _ hadj

theorem dfsLoop_nil_stack (lines : List (ℕ × ℕ)) (visited : List ℕ) :
    dfsLoop lines visited [] = visited := by
  simp [dfsLoop]

theorem dfsLoop_cons_not_mem {lines : List (ℕ × ℕ)} {visited : List ℕ}
    {current : ℕ} {rest : List ℕ} (h : current ∉ visited) :
    dfsLoop lines visited (current :: rest) =
      dfsLoop lines (current :: visited)
        (pushNeighbors current (current :: visited) lines ++ rest) := by
  conv_lhs => rw [dfsLoop]
  rw [dif_neg h]

theorem reach_endpoint {lines : List (ℕ × ℕ)} {s v : ℕ} (h : Reach lines s v)
    (hne : v ≠ s) : ∃ l ∈ lines, l.1 = v ∨ l.2 = v := by
  cases h with
  | refl => exact absurd rfl hne
  | tail hr hadj =>
    obtain ⟨l, hl, hor⟩ := hadj
    exact ⟨l, hl, by tauto⟩

/-- C5: `findConnectedComponents` returns exactly the points reachable from
the start through the undirected adjacency of lines, including the start
itself; in particular, with points `0,1,2,3` and lines `0–1`, `1–2` (no line
touching `3`), it returns `{0,1,2}` from `0` and `{3}` from `3`. -/
theorem C5_connectivity :
    (∀ (g : PoincareGraph) (s v : ℕ),
        v ∈ g.findConnectedComponents s ↔ Reach g.lines s v) ∧
    (∀ v, v ∈ (PoincareGraph.mk [0, 1, 2, 3] [(0, 1), (1, 2)]).findConnectedComponents 0
        ↔ (v = 0 ∨ v = 1 ∨ v = 2)) ∧
    (∀ v, v ∈ (PoincareGraph.mk [0, 1, 2, 3] [(0, 1), (1, 2)]).findConnectedComponents 3
        ↔ v = 3) := by
  refine ⟨mem_fcc_iff_reach, fun v => ?_, fun v => ?_⟩
  · have hval : (PoincareGraph.mk [0, 1, 2, 3] [(0, 1), (1, 2)]).findConnectedComponents 0
        = [2, 1, 0] := by
      simp [PoincareGraph.findConnectedComponents, dfsLoop, pushNeighbors]
    rw [hval]
    simp only [List.mem_cons, List.not_mem_nil, or_false]
    tauto
  · have hval : (PoincareGraph.mk [0, 1, 2, 3] [(0, 1), (1, 2)]).findConnectedComponents 3
        = [3] := by
      simp [PoincareGraph.findConnectedComponents, dfsLoop, pushNeighbors]
    rw [hval]
    simp

/-- C10: from any start point `s` — member of the graph or not — the
traversal terminates with a set containing `s`; every other returned point
is an endpoint of some line, and when no line touches `s` the result is
exactly `[s]`. -/
theorem C10_fcc_from_any_start (g : PoincareGraph) (s : ℕ) :
    s ∈ g.findConnectedComponents s ∧
    (∀ v, v ∈ g.findConnectedComponents s → v ≠ s →
        ∃ l ∈ g.lines, l.1 = v ∨ l.2 = v) ∧
    ((∀ l ∈ g.lines, l.1 ≠ s ∧ l.2 ≠ s) → g.findConnectedComponents s = [s]) := by
  refine ⟨stack_subset_dfsLoop g.lines [] [s] s (List.mem_singleton_self s),
          fun v hv hne => reach_endpoint ((mem_fcc_iff_reach g s v).mp hv) hne, ?_⟩
  intro hno
  have hs_not : s ∉ allEndpoints g.lines := by
    rw [mem_allEndpoints]
    rintro ⟨l, hl, hor⟩
    rcases hor with h | h
    · exact (hno l hl).1 h
    · exact (hno l hl).2 h
  show dfsLoop g.lines [] [s] = [s]
  rw [dfsLoop_cons_not_mem (List.not_mem_nil s), pushNeighbors_eq_nil hs_not,
    List.nil_append, dfsLoop_nil_stack]

/-- C10 witness: an isolated non-member start point yields exactly itself. -/
theorem C10_fcc_from_any_start_witness :
    5 ∈ (PoincareGraph.mk [] []).findConnectedComponents 5 ∧
      (PoincareGraph.mk [] []).findConnectedComponents 5 = [5] :=
  ⟨(C10_fcc_from_any_start (PoincareGraph.mk [] []) 5).1,
   (C10_fcc_from_any_start (PoincareGraph.mk [] []) 5).2.2 (by simp)⟩

/-- Scan loop of `findPointNear` (`src/components/PoincareGraph.ts`,
lines 36–52): for each stored point in order, convert it to normalized
space and return the first whose Euclidean distance to the target is
strictly below the threshold `0.03`.  A point whose conversion is the NaN
pair yields a NaN distance and `NaN < 0.03` is false in JS, so such a point
is skipped, as in the `none` branch here. -/
noncomputable def findPointNearAux (pos : ℕ → ℝ × ℝ) (target : ℝ × ℝ) :
    List ℕ → Option ℕ
  | [] => none
  | p :: rest =>
    match getNormalizedPointFromHyperbolicPoint (pos p) with
    | none => findPointNearAux pos target rest
    | some n =>
      if Real.sqrt ((n.1 - target.1) ^ 2 + (n.2 - target.2) ^ 2) < 0.03 then some p
      else findPointNearAux pos target rest

/-- Embedding of `findPointNear`, scanning the points of the graph in insertion order. -/
noncomputable def PoincareGraph.findPointNear (g : PoincareGraph)
    (pos : ℕ → ℝ × ℝ) (target : ℝ × ℝ) : Option ℕ :=
  findPointNearAux pos target g.points

/-- The acceptance predicate of the scan: the point has a real normalized
image and that image lies within distance `0.03` of the target. -/
def NearTarget (pos : ℕ → ℝ × ℝ) (target : ℝ × ℝ) (p : ℕ) : Prop :=
  ∃ n : ℝ × ℝ, getNormalizedPointFromHyperbolicPoint (pos p) = some n ∧
    Real.sqrt ((n.1 - target.1) ^ 2 + (n.2 - target.2) ^ 2) < 0.03

theorem fpn_cons_near {pos : ℕ → ℝ × ℝ} {target : ℝ × ℝ} {p : ℕ} {rest : List ℕ}
    (h : NearTarget pos target p) :
    findPointNearAux pos target (p :: rest) = some p := by
  obtain ⟨n, hn, hd⟩ := h
  simp only [findPointNearAux, hn]
  rw [if_pos hd]

theorem fpn_cons_far {pos : ℕ → ℝ × ℝ} {target : ℝ × ℝ} {p : ℕ} {rest : List ℕ}
    (h : ¬NearTarget pos target p) :
    findPointNearAux pos target (p :: rest) = findPointNearAux pos target rest := by
  cases hnp : getNormalizedPointFromHyperbolicPoint (pos p) with
  | none => simp only [findPointNearAux, hnp]
  | some n =>
    have hd : ¬Real.sqrt ((n.1 - target.1) ^ 2 + (n.2 - target.2) ^ 2) < 0.03 :=
      fun hd => h ⟨n, hnp, hd⟩
    simp only [findPointNearAux, hnp]
    rw [if_neg hd]

theorem findPointNearAux_none_iff (pos : ℕ → ℝ × ℝ) (target : ℝ × ℝ)
    (pts : List ℕ) :
    findPointNearAux pos target pts = none ↔
      ∀ p ∈ pts, ¬NearTarget pos target p := by
  induction pts with
  | nil => simp [findPointNearAux]
  | cons p rest ih =>
    by_cases hp : NearTarget pos target p
    · rw [fpn_cons_near hp]
      constructor
      · intro h
        exact absurd h (Option.some_ne_none p)
      · intro hall
        exact absurd hp (hall p (List.mem_cons_self p rest))
    · rw [fpn_cons_far hp, ih]
      constructor
      · intro hall r hr
        rcases List.mem_cons.mp hr with rfl | hr'
        · exact hp
        · exact hall r hr'
      · intro hall r hr
        exact hall r (List.mem_cons_of_mem _ hr)

theorem findPointNearAux_some_iff (pos : ℕ → ℝ × ℝ) (target : ℝ × ℝ)
    (pts : List ℕ) (q : ℕ) :
    findPointNearAux pos target pts = some q ↔
      ∃ l1 l2, pts = l1 ++ q :: l2 ∧ NearTarget pos target q ∧
        ∀ p ∈ l1, ¬NearTarget pos target p := by
  induction pts with
  | nil =>
    constructor
    · intro h
      rw [show findPointNearAux pos target [] = none from rfl] at h
      exact absurd h (by simp)
    · rintro ⟨l1, l2, habs, -, -⟩
      exact absurd habs (by simp)
  | cons p rest ih =>
    by_cases hp : NearTarget pos target p
    · rw [fpn_cons_near hp]
      constructor
      · intro h
        have hq := Option.some_inj.mp h
        subst hq
        exact ⟨[], rest, rfl, hp, by simp⟩
      · rintro ⟨l1, l2, heq, hq, hall⟩
        cases l1 with
        | nil =>
          rw [List.nil_append] at heq
          injection heq with h1 _
          rw [h1]
        | cons x l1' =>
          rw [List.cons_append] at heq
          injection heq with h1 _
          subst h1
          exact absurd hp (hall p (List.mem_cons_self p l1'))
    · rw [fpn_cons_far hp, ih]
      constructor
      · rintro ⟨l1, l2, heq, hq, hall⟩
        refine ⟨p :: l1, l2, by rw [heq, List.cons_append], hq, ?_⟩
        intro r hr
        rcases List.mem_cons.mp hr with rfl | hr'
        · exact hp
        · exact hall r hr'
      · rintro ⟨l1, l2, heq, hq, hall⟩
        cases l1 with
        | nil =>
          rw [List.nil_append] at heq
          injection heq with h1 _
          exact absurd (h1 ▸ hq) hp
        | cons x l1' =>
          rw [List.cons_append] at heq
          injection heq with h1 h2
          subst h1
          exact ⟨l1', l2, h2, hq, fun r hr => hall r (List.mem_cons_of_mem _ hr)⟩

/-- The hyperbolic origin maps to the normalized origin. -/
theorem getNormalized_origin :
    getNormalizedPointFromHyperbolicPoint (0, 0) = some (0, 0) := by
  simp only [getNormalizedPointFromHyperbolicPoint]
  rw [Real.tanh_zero]
  norm_num [Real.sqrt_one]

/-- C7: `findPointNear` scans points in insertion order and returns the
first point whose normalized Euclidean distance to the target is strictly
below `0.03` (first match, not nearest match), or `none` when no point
qualifies; with a stored point at normalized `(0, 0)`, the target
`(0.02, 0)` finds it and `(0.05, 0)` does not. -/
theorem C7_findPointNear_first_match :
    (∀ (g : PoincareGraph) (pos : ℕ → ℝ × ℝ) (t : ℝ × ℝ),
      (g.findPointNear pos t = none ↔ ∀ p ∈ g.points, ¬NearTarget pos t p) ∧
      (∀ q, g.findPointNear pos t = some q ↔
        ∃ l1 l2, g.points = l1 ++ q :: l2 ∧ NearTarget pos t q ∧
          ∀ p ∈ l1, ¬NearTarget pos t p)) ∧
    (PoincareGraph.mk [0] []).findPointNear (fun _ => (0, 0)) (0.02, 0) = some 0 ∧
    (PoincareGraph.mk [0] []).findPointNear (fun _ => (0, 0)) (0.05, 0) = none := by
  refine ⟨fun g pos t =>
    ⟨findPointNearAux_none_iff pos t g.points,
     fun q => findPointNearAux_some_iff pos t g.points q⟩, ?_, ?_⟩
  · show findPointNearAux _ _ [0] = some 0
    apply fpn_cons_near
    refine ⟨(0, 0), getNormalized_origin, ?_⟩
    have hd : ((0 : ℝ) - 0.02) ^ 2 + ((0 : ℝ) - 0) ^ 2 = (0.02 : ℝ) ^ 2 := by norm_num
    simp only
    rw [hd, Real.sqrt_sq (by norm_num : (0 : ℝ) ≤ 0.02)]
    norm_num
  · show findPointNearAux _ _ [0] = none
    rw [fpn_cons_far, show findPointNearAux (fun _ => ((0 : ℝ), (0 : ℝ))) (0.05, 0) [] = none from rfl]
    rintro ⟨n, hn, hd⟩
    rw [getNormalized_origin] at hn
    have hn2 := Option.some_inj.mp hn
    subst hn2
    have he : ((0 : ℝ) - 0.05) ^ 2 + ((0 : ℝ) - 0) ^ 2 = (0.05 : ℝ) ^ 2 := by norm_num
    rw [he, Real.sqrt_sq (by norm_num : (0 : ℝ) ≤ 0.05)] at hd
    norm_num at hd

/-- Viewport rectangle as returned by `getBoundingClientRect`; `right` and
`bottom` are `left + width` and `top + height`. -/
structure DOMRectModel where
  left : ℝ
  top : ℝ
  width : ℝ
  height : ℝ

/-- Embedding of `getNormalizedPointFromScreenPoint` from
`src/geometry/PoincareDiskGeometry.ts` (lines 103–133): reject points
outside the rectangle, map the rectangle center to the origin, scale by half
the shorter dimension, flip the vertical axis, and reject mapped points
outside the unit disk.  (Degenerate rectangles with a zero dimension divide
by zero; the theorems below assume positive dimensions, where the real-field
division agrees with JS.) -/
noncomputable def getNormalizedPointFromScreenPoint (p : ℝ × ℝ)
    (rect : DOMRectModel) : Option (ℝ × ℝ) :=
  if p.1 < rect.left ∨ p.1 > rect.left + rect.width ∨
      p.2 < rect.top ∨ p.2 > rect.top + rect.height then none
  else
    let centerX := rect.left + rect.width / 2
    let centerY := rect.top + rect.height / 2
    let scaleFactor := min rect.width rect.height / 2
    let nx := (p.1 - centerX) / scaleFactor
    let ny := -(p.2 - centerY) / scaleFactor
    if nx * nx + ny * ny > 1 then none
    else some (nx, ny)

/-- C6: the screen transform fails exactly on points outside the rectangle
or mapped outside the unit disk, and otherwise returns exactly the uniform
center-scale-flip image. -/
theorem C6_screenToNormalized (rect : DOMRectModel) (p : ℝ × ℝ)
    (hw : 0 < rect.width) (hh : 0 < rect.height) :
    (getNormalizedPointFromScreenPoint p rect = none ↔
      ((p.1 < rect.left ∨ p.1 > rect.left + rect.width ∨
          p.2 < rect.top ∨ p.2 > rect.top + rect.height) ∨
        ((p.1 - (rect.left + rect.width / 2)) / (min rect.width rect.height / 2)) *
            ((p.1 - (rect.left + rect.width / 2)) / (min rect.width rect.height / 2)) +
          (-(p.2 - (rect.top + rect.height / 2)) / (min rect.width rect.height / 2)) *
            (-(p.2 - (rect.top + rect.height / 2)) / (min rect.width rect.height / 2)) > 1)) ∧
    (¬(p.1 < rect.left ∨ p.1 > rect.left + rect.width ∨
        p.2 < rect.top ∨ p.2 > rect.top + rect.height) →
      ¬(((p.1 - (rect.left + rect.width / 2)) / (min rect.width rect.height / 2)) *
            ((p.1 - (rect.left + rect.width / 2)) / (min rect.width rect.height / 2)) +
          (-(p.2 - (rect.top + rect.height / 2)) / (min rect.width rect.height / 2)) *
            (-(p.2 - (rect.top + rect.height / 2)) / (min rect.width rect.height / 2)) > 1) →
      getNormalizedPointFromScreenPoint p rect =
        some ((p.1 - (rect.left + rect.width / 2)) / (min rect.width rect.height / 2),
          -(p.2 - (rect.top + rect.height / 2)) / (min rect.width rect.height / 2))) := by
  simp only [getNormalizedPointFromScreenPoint]
  by_cases h1 : p.1 < rect.left ∨ p.1 > rect.left + rect.width ∨
      p.2 < rect.top ∨ p.2 > rect.top + rect.height
  · rw [if_pos h1]
    exact ⟨⟨fun _ => Or.inl h1, fun _ => rfl⟩, fun hno => absurd h1 hno⟩
  · rw [if_neg h1]
    by_cases h2 : ((p.1 - (rect.left + rect.width / 2)) / (min rect.width rect.height / 2)) *
          ((p.1 - (rect.left + rect.width / 2)) / (min rect.width rect.height / 2)) +
        (-(p.2 - (rect.top + rect.height / 2)) / (min rect.width rect.height / 2)) *
          (-(p.2 - (rect.top + rect.height / 2)) / (min rect.width rect.height / 2)) > 1
    · rw [if_pos h2]
      exact ⟨⟨fun _ => Or.inr h2, fun _ => rfl⟩, fun _ hno => absurd h2 hno⟩
    · rw [if_neg h2]
      refine ⟨⟨fun hc => absurd hc (by simp), ?_⟩, fun _ _ => rfl⟩
      rintro (hc | hc)
      · exact absurd hc h1
      · exact absurd hc h2

/-- C6 witness: the center of a `2 × 2` viewport maps to the origin. -/
theorem C6_screenToNormalized_witness :
    (0 : ℝ) < 2 ∧
      getNormalizedPointFromScreenPoint (1, 1) (DOMRectModel.mk 0 0 2 2) =
        some (0, 0) := by
  refine ⟨by norm_num, ?_⟩
  have h := (C6_screenToNormalized (DOMRectModel.mk 0 0 2 2) (1, 1)
    (by norm_num) (by norm_num)).2 (by norm_num) (by norm_num)
  rw [h]
  norm_num

/-- Model of `Math.atan2 y x`: the argument of the complex number `x + y·i`. -/
noncomputable def jsAtan2 (y x : ℝ) : ℝ := Complex.arg ⟨x, y⟩

/-- The `NormalizedArc` record of `src/types.ts`; `radius = none` models the
`Infinity` sentinel stored for straight lines. -/
structure NormalizedArc where
  center : ℝ × ℝ
  radius : Option ℝ
  startAngle : ℝ
  endAngle : ℝ
  isStraight : Bool

/-- Embedding of `getNormalizedArcFromHyperbolicLine` from
`src/geometry/PoincareDiskGeometry.ts` (lines 54–101).  Both endpoints are
first normalized; if either normalization is the NaN pair the whole arc is
NaN (modelled by the outer `none`).  Otherwise: the straight case when
`|d| < 1e-10`, else the circle through both points orthogonal to the unit
circle, with the minor-arc angle normalization. -/
noncomputable def getNormalizedArcFromHyperbolicLine (line : (ℝ × ℝ) × (ℝ × ℝ)) :
    Option NormalizedArc :=
  match getNormalizedPointFromHyperbolicPoint line.1,
      getNormalizedPointFromHyperbolicPoint line.2 with
  | some u, some v =>
    let d := u.1 * v.2 - u.2 * v.1
    if |d| < 1e-10 then
      some { center := (0, 0), radius := none,
             startAngle := jsAtan2 u.2 u.1, endAngle := jsAtan2 v.2 v.1,
             isStraight := true }
    else
      let a := (u.2 * (v.1 ^ 2 + v.2 ^ 2 + 1) - v.2 * (u.1 ^ 2 + u.2 ^ 2 + 1)) / d
      let b := (v.1 * (u.1 ^ 2 + u.2 ^ 2 + 1) - u.1 * (v.1 ^ 2 + v.2 ^ 2 + 1)) / d
      let center : ℝ × ℝ := (-a / 2, -b / 2)
      let radius := Real.sqrt ((a / 2) ^ 2 + (b / 2) ^ 2 - 1)
      let angleStart := jsAtan2 (u.2 - center.2) (u.1 - center.1)
      let angleEnd := jsAtan2 (v.2 - center.2) (v.1 - center.1)
      let angleEnd2 := if angleEnd < angleStart then angleEnd + 2 * Real.pi else angleEnd
      let pr := if angleEnd2 - angleStart > Real.pi then (angleEnd2, angleStart)
                else (angleStart, angleEnd2)
      some { center := center, radius := some radius,
             startAngle := pr.1, endAngle := pr.2, isStraight := false }
  | _, _ => none

/-- C8: for a non-degenerate arc (`|u1·v2 − u2·v1| ≥ 1e-10`) built from
normalized endpoints of a hyperbolic line, the computed circle is orthogonal
to the unit circle: `|center|² = radius² + 1`, exactly. -/
theorem C8_arc_orthogonality (ph qh u v : ℝ × ℝ)
    (hu : getNormalizedPointFromHyperbolicPoint ph = some u)
    (hv : getNormalizedPointFromHyperbolicPoint qh = some v)
    (hd : 1e-10 ≤ |u.1 * v.2 - u.2 * v.1|) :
    ∃ arc : NormalizedArc, getNormalizedArcFromHyperbolicLine (ph, qh) = some arc ∧
      arc.isStraight = false ∧
      ∃ r : ℝ, arc.radius = some r ∧
        arc.center.1 ^ 2 + arc.center.2 ^ 2 = r ^ 2 + 1 := by
  have hd0 : u.1 * v.2 - u.2 * v.1 ≠ 0 := by
    intro h0
    rw [h0] at hd
    norm_num at hd
  have hdnotlt : ¬|u.1 * v.2 - u.2 * v.1| < 1e-10 := not_lt.mpr hd
  simp only [getNormalizedArcFromHyperbolicLine, hu, hv]
  rw [if_neg hdnotlt]
  refine ⟨_, rfl, rfl, _, rfl, ?_⟩
  simp only
  set d := u.1 * v.2 - u.2 * v.1 with hdd
  set a := (u.2 * (v.1 ^ 2 + v.2 ^ 2 + 1) - v.2 * (u.1 ^ 2 + u.2 ^ 2 + 1)) / d with ha
  set b := (v.1 * (u.1 ^ 2 + u.2 ^ 2 + 1) - u.1 * (v.1 ^ 2 + v.2 ^ 2 + 1)) / d with hb
  have key : a * u.1 + b * u.2 = -(u.1 ^ 2 + u.2 ^ 2 + 1) := by
    rw [ha, hb]
    field_simp
    ring
  have hrad : 0 ≤ (a / 2) ^ 2 + (b / 2) ^ 2 - 1 := by
    nlinarith [sq_nonneg (u.1 + a / 2), sq_nonneg (u.2 + b / 2), key]
  rw [Real.sq_sqrt hrad]
  ring

/-- C8 witness: the concrete hyperbolic line from `(artanh (1/2), 0)` to
`(0, artanh (1/2))` has a non-degenerate arc satisfying the orthogonality
identity. -/
theorem C8_arc_orthogonality_witness :
    ∃ u v : ℝ × ℝ,
      getNormalizedPointFromHyperbolicPoint (artanh (1 / 2), 0) = some u ∧
      getNormalizedPointFromHyperbolicPoint (0, artanh (1 / 2)) = some v ∧
      1e-10 ≤ |u.1 * v.2 - u.2 * v.1| ∧
      ∃ arc : NormalizedArc,
        getNormalizedArcFromHyperbolicLine ((artanh (1 / 2), 0), (0, artanh (1 / 2)))
          = some arc ∧
        arc.isStraight = false ∧
        ∃ r : ℝ, arc.radius = some r ∧
          arc.center.1 ^ 2 + arc.center.2 ^ 2 = r ^ 2 + 1 := by
  have hhalf : |(1 : ℝ) / 2| < 1 := by rw [abs_lt]; constructor <;> norm_num
  have hth : Real.tanh (artanh (1 / 2)) = 1 / 2 := tanh_artanh hhalf
  have hdom1 : (0 : ℝ) ≤ 1 - Real.tanh (artanh (1 / 2)) ^ 2 - Real.tanh 0 ^ 2 := by
    rw [hth, Real.tanh_zero]; norm_num
  have hdom2 : (0 : ℝ) ≤ 1 - Real.tanh 0 ^ 2 - Real.tanh (artanh (1 / 2)) ^ 2 := by
    rw [hth, Real.tanh_zero]; norm_num
  have hu := getNormalized_eq_some hdom1
  have hv := getNormalized_eq_some hdom2
  rw [hth, Real.tanh_zero] at hu hv
  have e1 : (1 : ℝ) - (1 / 2) ^ 2 - 0 ^ 2 = 3 / 4 := by norm_num
  have e2 : (1 : ℝ) - 0 ^ 2 - (1 / 2) ^ 2 = 3 / 4 := by norm_num
  rw [e1, zero_div] at hu
  rw [e2, zero_div] at hv
  have hsnn : (0 : ℝ) ≤ Real.sqrt (3 / 4) := Real.sqrt_nonneg _
  have hsle : Real.sqrt (3 / 4) ≤ 1 := by
    rw [show (1 : ℝ) = Real.sqrt 1 from Real.sqrt_one.symm]
    exact Real.sqrt_le_sqrt (by norm_num)
  have hcge : (1 : ℝ) / 4 ≤ 1 / 2 / (1 + Real.sqrt (3 / 4)) := by
    rw [le_div_iff₀ (by linarith)]
    linarith
  have hdge : (1e-10 : ℝ) ≤
      |1 / 2 / (1 + Real.sqrt (3 / 4)) * (1 / 2 / (1 + Real.sqrt (3 / 4))) - 0 * 0| := by
    rw [mul_zero, sub_zero, abs_of_nonneg (by positivity)]
    nlinarith [hcge]
  exact ⟨(1 / 2 / (1 + Real.sqrt (3 / 4)), 0), (0, 1 / 2 / (1 + Real.sqrt (3 / 4))),
    hu, hv, hdge, C8_arc_orthogonality _ _ _ _ hu hv hdge⟩
